import Mathlib

/-!
Shallow embedding of src/cacheman.py (class Cacheman): an in-memory
key/value cache (dict-like or ordered-pair-list representation) backed by a
single two-column sqlite table written via INSERT OR REPLACE.

Values are modelled by an inductive covering the Python value forms the
claims exercise (None, bool, int, str), together with Python truthiness
(used by the `or None` pattern in the dict branch of get) and the str()
rendering used by search. The sqlite table is modelled as an association
list with unique keys; INSERT OR REPLACE is an in-place upsert (row order
inside the table is not observable through any claim, which are stated in
terms of row lookup and row membership).
-/

/-- Python values, restricted to the forms the cache stores in the claims:
None, booleans, integers and strings. -/
inductive PyValue where
  | pnone : PyValue
  | pbool : Bool → PyValue
  | pint : Int → PyValue
  | pstr : String → PyValue
deriving DecidableEq

/-- Python truthiness of a value: None, False, 0 and the empty string are
falsy, everything else truthy. -/
def truthy : PyValue → Bool
  | PyValue.pnone => false
  | PyValue.pbool b => b
  | PyValue.pint n => decide (n ≠ 0)
  | PyValue.pstr s => decide (s ≠ "")

/-- The str() rendering Python applies inside search via str(v). -/
def pyStr : PyValue → String
  | PyValue.pnone => "None"
  | PyValue.pbool true => "True"
  | PyValue.pbool false => "False"
  | PyValue.pint n => toString n
  | PyValue.pstr s => s

/-- First-match association-list lookup; this is literally the loop
`for k, v in self._data: if k == key: return v` of the list branch of get,
and coincides with dict lookup when keys are unique. -/
def aget : List (String × PyValue) → String → Option PyValue
  | [], _ => Option.none
  | (k, v) :: rest, key => if k = key then Option.some v else aget rest key

/-- The keys of an association list, in order. -/
def keys (d : List (String × PyValue)) : List String :=
  d.map Prod.fst

/-- Does the character list needle occur at the head of hay. -/
def matchAt : List Char → List Char → Bool
  | [], _ => true
  | _ :: _, [] => false
  | a :: as, b :: bs => (a == b) && matchAt as bs

/-- Does the character list needle occur contiguously anywhere in hay. -/
def hasSub : List Char → List Char → Bool
  | needle, [] => needle.isEmpty
  | needle, c :: rest => matchAt needle (c :: rest) || hasSub needle rest

/-- Python substring membership `q in hay`: case-sensitive contiguous
occurrence, no regex interpretation. -/
def strContains (hay q : String) : Bool :=
  hasSub q.toList hay.toList

/-- The two validated representations selected by the data_type argument. -/
inductive DataType where
  | dict : DataType
  | list : DataType
deriving DecidableEq

/-- The list comprehension of Cacheman.edit, `[(k, new_value) if k == key
else (k, v) for k, v in data]`: replace in place the value of every pair
whose key matches, keep the rest, preserving order. -/
def replaceKey : List (String × PyValue) → String → PyValue →
    List (String × PyValue)
  | [], _, _ => []
  | (k, v) :: rest, key, nv =>
    (if k = key then (key, nv) else (k, v)) :: replaceKey rest key nv

/-- The list comprehension of Cacheman.remove, `[(k, v) for k, v in data
if k != key]`: drop every pair whose key matches, preserving order. -/
def removeKey : List (String × PyValue) → String → List (String × PyValue)
  | [], _ => []
  | (k, v) :: rest, key =>
    if k = key then removeKey rest key else (k, v) :: removeKey rest key

/-- Python dict assignment `d[key] = v` on an association list: replace the
value in place when the key is present, append otherwise. -/
def dictSet (d : List (String × PyValue)) (key : String) (v : PyValue) :
    List (String × PyValue) :=
  if (aget d key).isSome then replaceKey d key v
  else d ++ [(key, v)]

/-- One INSERT OR REPLACE INTO cache (key, value) against the table, keyed
by the primary key. -/
def tUpsert (t : List (String × PyValue)) (key : String) (v : PyValue) :
    List (String × PyValue) :=
  if (aget t key).isSome then replaceKey t key v
  else t ++ [(key, v)]

/-- The state of a Cacheman instance: the fixed representation choice, the
in-memory container _data, and the rows of the sqlite cache table. -/
structure Cacheman where
  data_type : DataType
  data : List (String × PyValue)
  table : List (String × PyValue)
deriving DecidableEq

/-- Cacheman.backup_to_db: one INSERT OR REPLACE per in-memory entry, in
iteration order; rows for keys absent from the store are never touched. -/
def Cacheman.backup_to_db (s : Cacheman) : Cacheman :=
  { s with table := s.data.foldl (fun t kv => tUpsert t kv.1 kv.2) s.table }

/-- Cacheman.get: dict branch is `self._data.get(key) or None` (a falsy
stored value is reported as None); list branch is a first-match scan
returning the stored value unchanged, or None when no pair matches. -/
def Cacheman.get (s : Cacheman) (key : String) : PyValue :=
  match s.data_type with
  | DataType.dict =>
    match aget s.data key with
    | Option.some v => if truthy v then v else PyValue.pnone
    | Option.none => PyValue.pnone
  | DataType.list =>
    match aget s.data key with
    | Option.some v => v
    | Option.none => PyValue.pnone

/-- The outcome of Cacheman.add: the source returns a KeyError value (not a
raised exception) when the existence check fires, and None on success. -/
inductive AddResult where
  | ok : AddResult
  | keyError : AddResult
deriving DecidableEq

/-- Cacheman.add: returns the KeyError value and leaves everything
untouched when `self.get(key) is not None`; otherwise inserts (dict
assignment or list append) and triggers backup_to_db. -/
def Cacheman.add (s : Cacheman) (key : String) (v : PyValue) :
    AddResult × Cacheman :=
  if s.get key ≠ PyValue.pnone then
    (AddResult.keyError, s)
  else
    let s' : Cacheman :=
      { s with data :=
          match s.data_type with
          | DataType.dict => dictSet s.data key v
          | DataType.list => s.data ++ [(key, v)] }
    (AddResult.ok, s'.backup_to_db)

/-- Cacheman.remove: dict branch deletes the key when present, list branch
keeps the pairs whose key differs; silent when absent; then backup_to_db. -/
def Cacheman.remove (s : Cacheman) (key : String) : Cacheman :=
  let s' : Cacheman :=
    match s.data_type with
    | DataType.dict => { s with data := removeKey s.data key }
    | DataType.list => { s with data := removeKey s.data key }
  s'.backup_to_db

/-- Cacheman.edit: dict branch assigns only when the key is present; list
branch rebuilds the list replacing the value of every matching pair in
place; silent when absent; then backup_to_db. -/
def Cacheman.edit (s : Cacheman) (key : String) (v : PyValue) : Cacheman :=
  let s' : Cacheman :=
    match s.data_type with
    | DataType.dict =>
      { s with data :=
          if (aget s.data key).isSome then replaceKey s.data key v
          else s.data }
    | DataType.list =>
      { s with data := replaceKey s.data key v }
  s'.backup_to_db

/-- The comprehension of Cacheman.search: keep the entries for which
`query in k or query in str(v)`, preserving order. -/
def searchData : List (String × PyValue) → String → List (String × PyValue)
  | [], _ => []
  | (k, v) :: rest, query =>
    if strContains k query || strContains (pyStr v) query then
      (k, v) :: searchData rest query
    else searchData rest query

/-- Cacheman.search: keep the entries whose key or str()-rendered value
contains the query as a substring. -/
def Cacheman.search (s : Cacheman) (query : String) : List (String × PyValue) :=
  searchData s.data query

/-- Cacheman.get_all: a copy of the container; contents identical. -/
def Cacheman.get_all (s : Cacheman) : List (String × PyValue) :=
  s.data

/-- A freshly constructed instance with no pre-existing database file:
empty container, empty cache table (after CREATE TABLE IF NOT EXISTS). -/
def initCacheman (dt : DataType) : Cacheman :=
  { data_type := dt, data := [], table := [] }

/-- Cacheman.load_from_db converted to the configured representation: the
dict branch is the comprehension (repeated dict assignment over the fetched
rows), the list branch keeps the rows as the pair list. -/
def loadRows (dt : DataType) (rows : List (String × PyValue)) :
    List (String × PyValue) :=
  match dt with
  | DataType.dict => rows.foldl (fun d kv => dictSet d kv.1 kv.2) []
  | DataType.list => rows

/-- Constructing a new Cacheman instance (allow_loading true) against an
existing table: the container is hydrated by load_from_db and the table is
untouched. -/
def newInstance (dt : DataType) (table : List (String × PyValue)) : Cacheman :=
  { data_type := dt, data := loadRows dt table, table := table }

/-- The mutating operations of the public interface. -/
inductive Op where
  | add : String → PyValue → Op
  | edit : String → PyValue → Op
  | remove : String → Op
deriving DecidableEq

/-- Apply one operation to the state, discarding the KeyError value a
failed add returns (the caller keeps going, as in the source). -/
def applyOp (s : Cacheman) : Op → Cacheman
  | Op.add k v => (s.add k v).2
  | Op.edit k v => s.edit k v
  | Op.remove k => s.remove k

/-- Run an operation sequence from a freshly constructed instance; every
mutation triggers its synchronous backup, as in the source. -/
def run (dt : DataType) (ops : List Op) : Cacheman :=
  ops.foldl applyOp (initCacheman dt)

/-- An operation never stores the Python value None. -/
def opNonNone : Op → Prop
  | Op.add _ v => v ≠ PyValue.pnone
  | Op.edit _ v => v ≠ PyValue.pnone
  | Op.remove _ => True

instance : DecidablePred opNonNone := by
  intro op
  cases op <;> simp [opNonNone] <;> infer_instance

/-- Is the operation a remove. -/
def isRemoveOp : Op → Prop
  | Op.add _ _ => False
  | Op.edit _ _ => False
  | Op.remove _ => True

instance : DecidablePred isRemoveOp := by
  intro op
  cases op <;> simp [isRemoveOp] <;> infer_instance

/-! Invariants of reachable states. -/

/-- No stored value is the Python value None. -/
def noneFree (d : List (String × PyValue)) : Prop :=
  ∀ kv ∈ d, kv.2 ≠ PyValue.pnone

/-- Invariant of the in-memory container: keys are unique and, in list
mode, no stored value is None (otherwise the existence check of add cannot
see the entry and duplicates keys). -/
def StoreInv (s : Cacheman) : Prop :=
  (keys s.data).Nodup ∧ (s.data_type = DataType.list → noneFree s.data)

/-- Invariant of the persistent table: row keys are unique (the primary
key) and every lookup agrees with the in-memory container. -/
def TableInv (s : Cacheman) : Prop :=
  (keys s.table).Nodup ∧ ∀ k, aget s.table k = aget s.data k

/-! Association-list lemmas. -/

theorem aget_eq_none_iff (d : List (String × PyValue)) (k : String) :
    aget d k = Option.none ↔ k ∉ keys d := by
  induction d with
  | nil => simp [aget, keys]
  | cons kv rest ih =>
    obtain ⟨k1, v1⟩ := kv
    by_cases h : k1 = k
    · subst h
      simp [aget, keys]
    · simp [aget, h, keys] at ih ⊢
      rw [ih]
      constructor
      · intro hnk
        exact ⟨fun he => h he.symm, hnk⟩
      · intro hp
        exact hp.2

theorem aget_append_of_none (d1 d2 : List (String × PyValue)) (k : String)
    (h : aget d1 k = Option.none) : aget (d1 ++ d2) k = aget d2 k := by
  induction d1 with
  | nil => simp
  | cons kv rest ih =>
    obtain ⟨k1, v1⟩ := kv
    by_cases hk : k1 = k
    · simp [aget, hk] at h
    · simp [aget, hk] at h ⊢
      exact ih h

theorem aget_append_of_some (d1 d2 : List (String × PyValue)) (k : String)
    (v : PyValue) (h : aget d1 k = Option.some v) :
    aget (d1 ++ d2) k = Option.some v := by
  induction d1 with
  | nil => simp [aget] at h
  | cons kv rest ih =>
    obtain ⟨k1, v1⟩ := kv
    by_cases hk : k1 = k
    · simp [aget, hk] at h ⊢
      exact h
    · simp [aget, hk] at h ⊢
      exact ih h

theorem aget_mem (d : List (String × PyValue)) (k : String) (v : PyValue)
    (h : aget d k = Option.some v) : (k, v) ∈ d := by
  induction d with
  | nil => simp [aget] at h
  | cons kv rest ih =>
    obtain ⟨k1, v1⟩ := kv
    by_cases hk : k1 = k
    · subst hk
      simp [aget] at h
      simp [h]
    · simp [aget, hk] at h
      simp [ih h]

theorem mem_aget (d : List (String × PyValue)) (k : String) (v : PyValue)
    (hnd : (keys d).Nodup) (h : (k, v) ∈ d) : aget d k = Option.some v := by
  induction d with
  | nil => simp at h
  | cons kv rest ih =>
    obtain ⟨k1, v1⟩ := kv
    rw [keys, List.map_cons] at hnd
    have hnd1 := List.nodup_cons.mp hnd
    rcases List.mem_cons.mp h with h1 | h1
    · simp only [Prod.mk.injEq] at h1
      obtain ⟨h1a, h1b⟩ := h1
      subst h1a
      subst h1b
      simp [aget]
    · by_cases hk : k1 = k
      · subst hk
        exact absurd (List.mem_map.mpr ⟨(k1, v), h1, rfl⟩) hnd1.1
      · simp [aget, hk]
        exact ih hnd1.2 h1

/-! Lemmas about the in-place value replacement used by dict assignment,
edit and INSERT OR REPLACE. -/

theorem aget_replaceKey_self (d : List (String × PyValue)) (key : String)
    (v : PyValue) :
    aget (replaceKey d key v) key = (aget d key).map (fun _ => v) := by
  induction d with
  | nil => simp [replaceKey, aget]
  | cons kv rest ih =>
    obtain ⟨k1, v1⟩ := kv
    simp only [replaceKey]
    by_cases hk : k1 = key
    · rw [if_pos hk]
      simp [aget, hk]
    · rw [if_neg hk]
      simp [aget, hk, ih]

theorem aget_replaceKey_ne (d : List (String × PyValue)) (key k2 : String)
    (v : PyValue) (h : k2 ≠ key) :
    aget (replaceKey d key v) k2 = aget d k2 := by
  induction d with
  | nil => simp [replaceKey]
  | cons kv rest ih =>
    obtain ⟨k1, v1⟩ := kv
    simp only [replaceKey]
    by_cases hk : k1 = key
    · rw [if_pos hk]
      have h1 : ¬ (key = k2) := fun he => h he.symm
      have h2 : ¬ (k1 = k2) := fun he => h (he.symm.trans hk)
      simp [aget, h1, h2, ih]
    · rw [if_neg hk]
      by_cases hk2 : k1 = k2
      · subst hk2
        simp [aget]
      · simp [aget, hk2, ih]

theorem keys_replaceKey (d : List (String × PyValue)) (key : String)
    (v : PyValue) : keys (replaceKey d key v) = keys d := by
  induction d with
  | nil => rfl
  | cons kv rest ih =>
    obtain ⟨k1, v1⟩ := kv
    simp only [replaceKey]
    by_cases hk : k1 = key
    · rw [if_pos hk]
      simp only [keys, List.map_cons] at ih ⊢
      rw [ih, hk]
    · rw [if_neg hk]
      simp only [keys, List.map_cons] at ih ⊢
      rw [ih]

theorem mem_replaceKey (d : List (String × PyValue)) (key : String)
    (v : PyValue) (kv2 : String × PyValue) (h : kv2 ∈ replaceKey d key v) :
    kv2.2 = v ∨ kv2 ∈ d := by
  induction d with
  | nil => simp [replaceKey] at h
  | cons kv rest ih =>
    obtain ⟨k1, v1⟩ := kv
    simp only [replaceKey] at h
    by_cases hk : k1 = key
    · rw [if_pos hk] at h
      rcases List.mem_cons.mp h with h1 | h1
      · left
        rw [h1]
      · rcases ih h1 with h2 | h2
        · exact Or.inl h2
        · exact Or.inr (List.mem_cons_of_mem _ h2)
    · rw [if_neg hk] at h
      rcases List.mem_cons.mp h with h1 | h1
      · right
        rw [h1]
        exact List.mem_cons_self _ _
      · rcases ih h1 with h2 | h2
        · exact Or.inl h2
        · exact Or.inr (List.mem_cons_of_mem _ h2)

theorem replaceKey_eq_self (d : List (String × PyValue)) (key : String)
    (v : PyValue) (h : aget d key = Option.none) :
    replaceKey d key v = d := by
  induction d with
  | nil => rfl
  | cons kv rest ih =>
    obtain ⟨k1, v1⟩ := kv
    simp only [aget] at h
    by_cases hk : k1 = key
    · rw [if_pos hk] at h
      exact absurd h (by simp)
    · rw [if_neg hk] at h
      simp only [replaceKey]
      rw [if_neg hk, ih h]

/-! Lemmas about the key-dropping comprehension used by remove. -/

theorem aget_removeKey_self (d : List (String × PyValue)) (key : String) :
    aget (removeKey d key) key = Option.none := by
  induction d with
  | nil => simp [removeKey, aget]
  | cons kv rest ih =>
    obtain ⟨k1, v1⟩ := kv
    simp only [removeKey]
    by_cases hk : k1 = key
    · rw [if_pos hk]
      exact ih
    · rw [if_neg hk]
      simp [aget, hk, ih]

theorem aget_removeKey_ne (d : List (String × PyValue)) (key k2 : String)
    (h : k2 ≠ key) :
    aget (removeKey d key) k2 = aget d k2 := by
  induction d with
  | nil => simp [removeKey]
  | cons kv rest ih =>
    obtain ⟨k1, v1⟩ := kv
    simp only [removeKey]
    by_cases hk : k1 = key
    · rw [if_pos hk, ih]
      have h2 : ¬ (k1 = k2) := fun he => h (he.symm.trans hk)
      simp [aget, h2]
    · rw [if_neg hk]
      by_cases hk2 : k1 = k2
      · subst hk2
        simp [aget]
      · simp [aget, hk2, ih]

theorem removeKey_eq_self (d : List (String × PyValue)) (key : String)
    (h : aget d key = Option.none) :
    removeKey d key = d := by
  induction d with
  | nil => rfl
  | cons kv rest ih =>
    obtain ⟨k1, v1⟩ := kv
    simp only [aget] at h
    by_cases hk : k1 = key
    · rw [if_pos hk] at h
      exact absurd h (by simp)
    · rw [if_neg hk] at h
      simp only [removeKey]
      rw [if_neg hk, ih h]

theorem keys_removeKey_sublist (d : List (String × PyValue)) (key : String) :
    (keys (removeKey d key)).Sublist (keys d) := by
  induction d with
  | nil => simp [removeKey, keys]
  | cons kv rest ih =>
    obtain ⟨k1, v1⟩ := kv
    simp only [removeKey]
    by_cases hk : k1 = key
    · rw [if_pos hk]
      simp only [keys, List.map_cons]
      exact ih.trans (List.sublist_cons_self _ _)
    · rw [if_neg hk]
      simp only [keys, List.map_cons]
      exact List.Sublist.cons₂ _ ih

theorem mem_removeKey (d : List (String × PyValue)) (key : String)
    (kv2 : String × PyValue) (h : kv2 ∈ removeKey d key) : kv2 ∈ d := by
  induction d with
  | nil => simp [removeKey] at h
  | cons kv rest ih =>
    obtain ⟨k1, v1⟩ := kv
    simp only [removeKey] at h
    by_cases hk : k1 = key
    · rw [if_pos hk] at h
      exact List.mem_cons_of_mem _ (ih h)
    · rw [if_neg hk] at h
      rcases List.mem_cons.mp h with h1 | h1
      · rw [h1]
        exact List.mem_cons_self _ _
      · exact List.mem_cons_of_mem _ (ih h1)

/-! Lemmas about dict assignment and the table upsert. -/

theorem tUpsert_eq_dictSet : tUpsert = dictSet := rfl

theorem aget_dictSet_self (d : List (String × PyValue)) (key : String)
    (v : PyValue) : aget (dictSet d key v) key = Option.some v := by
  unfold dictSet
  by_cases hs : (aget d key).isSome
  · rw [if_pos hs, aget_replaceKey_self]
    obtain ⟨w, hw⟩ := Option.isSome_iff_exists.mp hs
    rw [hw]
    rfl
  · rw [if_neg hs]
    have hn : aget d key = Option.none := Option.not_isSome_iff_eq_none.mp hs
    rw [aget_append_of_none _ _ _ hn]
    simp [aget]

theorem aget_dictSet_ne (d : List (String × PyValue)) (key k2 : String)
    (v : PyValue) (h : k2 ≠ key) :
    aget (dictSet d key v) k2 = aget d k2 := by
  unfold dictSet
  by_cases hs : (aget d key).isSome
  · rw [if_pos hs, aget_replaceKey_ne _ _ _ _ h]
  · rw [if_neg hs]
    cases ho : aget d k2 with
    | none =>
      rw [aget_append_of_none _ _ _ ho]
      have hne : ¬ (key = k2) := fun he => h he.symm
      simp [aget, hne]
    | some w => rw [aget_append_of_some _ _ _ _ ho]

theorem keys_dictSet_nodup (d : List (String × PyValue)) (key : String)
    (v : PyValue) (hnd : (keys d).Nodup) : (keys (dictSet d key v)).Nodup := by
  unfold dictSet
  by_cases hs : (aget d key).isSome
  · rw [if_pos hs, keys_replaceKey]
    exact hnd
  · rw [if_neg hs]
    have hn : aget d key = Option.none := Option.not_isSome_iff_eq_none.mp hs
    have hk : key ∉ keys d := (aget_eq_none_iff d key).mp hn
    rw [keys, List.map_append]
    rw [List.nodup_append]
    refine ⟨hnd, List.nodup_singleton _, ?_⟩
    intro x hx
    simp only [List.map_cons, List.map_nil, List.mem_singleton]
    intro he
    subst he
    exact hk hx

theorem mem_dictSet (d : List (String × PyValue)) (key : String)
    (v : PyValue) (kv2 : String × PyValue) (h : kv2 ∈ dictSet d key v) :
    kv2.2 = v ∨ kv2 ∈ d := by
  unfold dictSet at h
  by_cases hs : (aget d key).isSome
  · rw [if_pos hs] at h
    exact mem_replaceKey d key v kv2 h
  · rw [if_neg hs] at h
    rcases List.mem_append.mp h with h1 | h1
    · exact Or.inr h1
    · left
      rw [List.mem_singleton.mp h1]

/-! Lemmas about the backup fold: one upsert per in-memory entry. -/

theorem aget_backupFold_not_mem (d : List (String × PyValue)) (k : String) :
    ∀ t : List (String × PyValue), k ∉ keys d →
      aget (d.foldl (fun t kv => tUpsert t kv.1 kv.2) t) k = aget t k := by
  induction d with
  | nil =>
    intro t _
    rfl
  | cons kv rest ih =>
    intro t h
    obtain ⟨k1, v1⟩ := kv
    rw [keys, List.map_cons] at h
    have h1 : k ∉ keys rest := fun hm => h (List.mem_cons_of_mem _ hm)
    have hk1 : k ≠ k1 := fun he => h (he ▸ List.mem_cons_self _ _)
    simp only [List.foldl_cons]
    rw [ih _ h1, tUpsert_eq_dictSet, aget_dictSet_ne _ _ _ _ hk1]

theorem aget_backupFold_nodup (d : List (String × PyValue)) (k : String) :
    ∀ t : List (String × PyValue), (keys d).Nodup →
      aget (d.foldl (fun t kv => tUpsert t kv.1 kv.2) t) k =
        match aget d k with
        | Option.some v => Option.some v
        | Option.none => aget t k := by
  induction d with
  | nil =>
    intro t _
    simp [aget]
  | cons kv rest ih =>
    intro t hnd
    obtain ⟨k1, v1⟩ := kv
    rw [keys, List.map_cons] at hnd
    have hnd1 := List.nodup_cons.mp hnd
    simp only [List.foldl_cons]
    rw [ih _ hnd1.2]
    by_cases hk : k1 = k
    · subst hk
      have hrest : aget rest k1 = Option.none :=
        (aget_eq_none_iff rest k1).mpr hnd1.1
      rw [hrest]
      simp [aget, tUpsert_eq_dictSet, aget_dictSet_self]
    · cases ho : aget rest k with
      | none =>
        simp [aget, hk, ho, tUpsert_eq_dictSet,
          aget_dictSet_ne _ _ _ _ (fun he : k = k1 => hk he.symm)]
      | some w => simp [aget, hk, ho]

theorem keys_backupFold_nodup (d : List (String × PyValue)) :
    ∀ t : List (String × PyValue), (keys t).Nodup →
      (keys (d.foldl (fun t kv => tUpsert t kv.1 kv.2) t)).Nodup := by
  induction d with
  | nil =>
    intro t h
    exact h
  | cons kv rest ih =>
    intro t h
    simp only [List.foldl_cons]
    exact ih _ (tUpsert_eq_dictSet ▸ keys_dictSet_nodup t kv.1 kv.2 h)

/-! The dict comprehension of load_from_db rebuilds the fetched rows when
their keys are unique. -/

theorem foldl_dictSet_disjoint (rows : List (String × PyValue)) :
    ∀ d : List (String × PyValue), (keys rows).Nodup →
      (∀ k ∈ keys rows, k ∉ keys d) →
      rows.foldl (fun d kv => dictSet d kv.1 kv.2) d = d ++ rows := by
  induction rows with
  | nil =>
    intro d _ _
    simp
  | cons kv rest ih =>
    intro d hnd hdisj
    obtain ⟨k1, v1⟩ := kv
    rw [keys, List.map_cons] at hnd
    have hnd1 := List.nodup_cons.mp hnd
    have hk1 : k1 ∉ keys d := hdisj k1 (List.mem_cons_self _ _)
    simp only [List.foldl_cons]
    have hset : dictSet d k1 v1 = d ++ [(k1, v1)] := by
      unfold dictSet
      rw [if_neg (by rw [(aget_eq_none_iff d k1).mpr hk1]; simp)]
    rw [hset, ih _ hnd1.2 ?_, List.append_assoc, List.singleton_append]
    intro k hk
    rw [keys, List.map_append]
    intro hmem
    rcases List.mem_append.mp hmem with h1 | h1
    · exact hdisj k (List.mem_cons_of_mem _ hk) h1
    · simp only [List.map_cons, List.map_nil, List.mem_singleton] at h1
      subst h1
      exact hnd1.1 hk

theorem loadRows_eq_self (dt : DataType) (t : List (String × PyValue))
    (hnd : (keys t).Nodup) : loadRows dt t = t := by
  cases dt with
  | dict =>
    unfold loadRows
    rw [foldl_dictSet_disjoint t [] hnd (by intro k _; simp [keys])]
    simp
  | list => rfl

theorem keys_append_single_nodup (d : List (String × PyValue)) (k : String)
    (v : PyValue) (hnd : (keys d).Nodup) (hk : k ∉ keys d) :
    (keys (d ++ [(k, v)])).Nodup := by
  rw [keys, List.map_append, List.nodup_append]
  refine ⟨hnd, List.nodup_singleton _, ?_⟩
  intro x hx
  simp only [List.map_cons, List.map_nil, List.mem_singleton]
  intro he
  subst he
  exact hk hx

theorem aget_append_none_left (d1 d2 : List (String × PyValue)) (k : String)
    (h : aget (d1 ++ d2) k = Option.none) : aget d1 k = Option.none := by
  cases ho : aget d1 k with
  | none => rfl
  | some w =>
    rw [aget_append_of_some _ _ _ _ ho] at h
    exact absurd h (by simp)

theorem aget_replaceKey_none (d : List (String × PyValue)) (key k : String)
    (v : PyValue) (h : aget (replaceKey d key v) k = Option.none) :
    aget d k = Option.none := by
  by_cases hk : k = key
  · subst hk
    rw [aget_replaceKey_self] at h
    cases ho : aget d k with
    | none => rfl
    | some w =>
      rw [ho] at h
      exact absurd h (by simp)
  · rw [aget_replaceKey_ne _ _ _ _ hk] at h
    exact h

theorem aget_dictSet_none (d : List (String × PyValue)) (key k : String)
    (v : PyValue) (h : aget (dictSet d key v) k = Option.none) :
    aget d k = Option.none := by
  by_cases hk : k = key
  · subst hk
    rw [aget_dictSet_self] at h
    exact absurd h (by simp)
  · rw [aget_dictSet_ne _ _ _ _ hk] at h
    exact h

theorem data_type_applyOp (s : Cacheman) (op : Op) :
    (applyOp s op).data_type = s.data_type := by
  obtain ⟨dt, d, t⟩ := s
  cases op with
  | add k v =>
    simp only [applyOp, Cacheman.add]
    split
    · rfl
    · cases dt <;> rfl
  | edit k v => cases dt <;> rfl
  | remove k => cases dt <;> rfl

theorem data_type_run (dt : DataType) (ops : List Op) :
    (run dt ops).data_type = dt := by
  suffices h : ∀ (l : List Op) (s : Cacheman),
      (l.foldl applyOp s).data_type = s.data_type by
    exact h ops (initCacheman dt)
  intro l
  induction l with
  | nil => intro s; rfl
  | cons op rest ih =>
    intro s
    rw [List.foldl_cons, ih (applyOp s op), data_type_applyOp]

theorem storeInv_applyOp (s : Cacheman) (op : Op) (hs : StoreInv s)
    (hop : s.data_type = DataType.list → opNonNone op) :
    StoreInv (applyOp s op) := by
  obtain ⟨dt, d, t⟩ := s
  obtain ⟨hnd, hnf⟩ := hs
  cases op with
  | add k v =>
    simp only [applyOp, Cacheman.add]
    by_cases hg : Cacheman.get ⟨dt, d, t⟩ k ≠ PyValue.pnone
    · rw [if_pos hg]
      exact ⟨hnd, hnf⟩
    · rw [if_neg hg]
      push_neg at hg
      cases dt with
      | dict =>
        refine ⟨?_, fun h => DataType.noConfusion h⟩
        show (keys (dictSet d k v)).Nodup
        exact keys_dictSet_nodup d k v hnd
      | list =>
        have hnf2 : noneFree d := hnf rfl
        have hnone : aget d k = Option.none := by
          cases ho : aget d k with
          | none => rfl
          | some w =>
            have hger : Cacheman.get ⟨DataType.list, d, t⟩ k = w := by
              simp [Cacheman.get, ho]
            rw [hger] at hg
            exact absurd (hg ▸ hnf2 (k, w) (aget_mem d k w ho)) (by simp)
        have hknotin : k ∉ keys d := (aget_eq_none_iff d k).mp hnone
        refine ⟨?_, ?_⟩
        · show (keys (d ++ [(k, v)])).Nodup
          exact keys_append_single_nodup d k v hnd hknotin
        · intro _
          intro kv hm
          rcases List.mem_append.mp hm with h1 | h1
          · exact hnf2 kv h1
          · rw [List.mem_singleton.mp h1]
            exact hop rfl
  | edit k v =>
    cases dt with
    | dict =>
      simp only [applyOp, Cacheman.edit]
      by_cases hs2 : (aget d k).isSome
      · rw [if_pos hs2]
        refine ⟨?_, fun h => DataType.noConfusion h⟩
        show (keys (replaceKey d k v)).Nodup
        rw [keys_replaceKey]
        exact hnd
      · rw [if_neg hs2]
        exact ⟨hnd, fun h => DataType.noConfusion h⟩
    | list =>
      refine ⟨?_, ?_⟩
      · show (keys (replaceKey d k v)).Nodup
        rw [keys_replaceKey]
        exact hnd
      · intro _
        intro kv hm
        rcases mem_replaceKey d k v kv hm with h1 | h1
        · rw [h1]
          exact hop rfl
        · exact hnf rfl kv h1
  | remove k =>
    cases dt with
    | dict =>
      refine ⟨?_, fun h => DataType.noConfusion h⟩
      show (keys (removeKey d k)).Nodup
      exact (keys_removeKey_sublist d k).nodup hnd
    | list =>
      refine ⟨?_, ?_⟩
      · show (keys (removeKey d k)).Nodup
        exact (keys_removeKey_sublist d k).nodup hnd
      · intro _
        intro kv hm
        exact hnf rfl kv (mem_removeKey d k kv hm)

theorem storeInv_run (dt : DataType) (ops : List Op)
    (hop : dt = DataType.list → ∀ op ∈ ops, opNonNone op) :
    StoreInv (run dt ops) := by
  suffices h : ∀ (l : List Op) (s : Cacheman), StoreInv s →
      (s.data_type = DataType.list → ∀ op ∈ l, opNonNone op) →
      StoreInv (l.foldl applyOp s) by
    refine h ops (initCacheman dt) ⟨List.nodup_nil, fun _ => ?_⟩ hop
    intro kv hm
    exact absurd hm (List.not_mem_nil kv)
  intro l
  induction l with
  | nil =>
    intro s hs _
    exact hs
  | cons op rest ih =>
    intro s hs hl
    rw [List.foldl_cons]
    refine ih (applyOp s op) ?_ ?_
    · exact storeInv_applyOp s op hs (fun h => hl h op (List.mem_cons_self _ _))
    · rw [data_type_applyOp]
      intro h op2 hm
      exact hl h op2 (List.mem_cons_of_mem _ hm)

theorem tableInv_backup (dt : DataType) (d t : List (String × PyValue))
    (hnd : (keys d).Nodup) (hndt : (keys t).Nodup)
    (hsub : ∀ k, aget d k = Option.none → aget t k = Option.none) :
    TableInv (Cacheman.backup_to_db ⟨dt, d, t⟩) := by
  constructor
  · show (keys (d.foldl (fun t kv => tUpsert t kv.1 kv.2) t)).Nodup
    exact keys_backupFold_nodup d t hndt
  · intro k
    show aget (d.foldl (fun t kv => tUpsert t kv.1 kv.2) t) k = aget d k
    rw [aget_backupFold_nodup d k t hnd]
    cases ho : aget d k with
    | none => simp [hsub k ho]
    | some w => simp

/-- Every add or edit (remove excluded) keeps both invariants: the mutation
keeps the store invariant and the triggered backup restores agreement of
the table with the store, because the mutation never shrinks the key set. -/
theorem goodState_applyOp (s : Cacheman) (op : Op)
    (hs : StoreInv s) (ht : TableInv s) (hnr : ¬ isRemoveOp op)
    (hop : s.data_type = DataType.list → opNonNone op) :
    StoreInv (applyOp s op) ∧ TableInv (applyOp s op) := by
  have hs' := storeInv_applyOp s op hs hop
  refine ⟨hs', ?_⟩
  obtain ⟨dt, d, t⟩ := s
  obtain ⟨hnd, hnf⟩ := hs
  obtain ⟨hndt, hagree⟩ := ht
  cases op with
  | add k v =>
    simp only [applyOp, Cacheman.add] at hs' ⊢
    by_cases hg : Cacheman.get ⟨dt, d, t⟩ k ≠ PyValue.pnone
    · rw [if_pos hg]
      exact ⟨hndt, hagree⟩
    · rw [if_neg hg] at hs' ⊢
      cases dt with
      | dict =>
        refine tableInv_backup DataType.dict (dictSet d k v) t hs'.1 hndt ?_
        intro k2 h2
        rw [hagree k2]
        exact aget_dictSet_none d k k2 v h2
      | list =>
        refine tableInv_backup DataType.list (d ++ [(k, v)]) t hs'.1 hndt ?_
        intro k2 h2
        rw [hagree k2]
        exact aget_append_none_left d [(k, v)] k2 h2
  | edit k v =>
    cases dt with
    | dict =>
      simp only [applyOp, Cacheman.edit] at hs' ⊢
      by_cases hsome : (aget d k).isSome
      · rw [if_pos hsome] at hs' ⊢
        refine tableInv_backup DataType.dict (replaceKey d k v) t hs'.1 hndt ?_
        intro k2 h2
        rw [hagree k2]
        exact aget_replaceKey_none d k k2 v h2
      · rw [if_neg hsome] at hs' ⊢
        refine tableInv_backup DataType.dict d t hs'.1 hndt ?_
        intro k2 h2
        rw [hagree k2, h2]
    | list =>
      simp only [applyOp, Cacheman.edit] at hs' ⊢
      refine tableInv_backup DataType.list (replaceKey d k v) t hs'.1 hndt ?_
      intro k2 h2
      rw [hagree k2]
      exact aget_replaceKey_none d k k2 v h2
  | remove k => exact absurd trivial hnr

theorem goodState_run (dt : DataType) (ops : List Op)
    (hnr : ∀ op ∈ ops, ¬ isRemoveOp op)
    (hop : dt = DataType.list → ∀ op ∈ ops, opNonNone op) :
    StoreInv (run dt ops) ∧ TableInv (run dt ops) := by
  suffices h : ∀ (l : List Op) (s : Cacheman), StoreInv s → TableInv s →
      (∀ op ∈ l, ¬ isRemoveOp op) →
      (s.data_type = DataType.list → ∀ op ∈ l, opNonNone op) →
      StoreInv (l.foldl applyOp s) ∧ TableInv (l.foldl applyOp s) by
    refine h ops (initCacheman dt) ⟨List.nodup_nil, fun _ kv hm => ?_⟩
      ⟨List.nodup_nil, fun k => rfl⟩ hnr hop
    exact absurd hm (List.not_mem_nil kv)
  intro l
  induction l with
  | nil =>
    intro s hs ht _ _
    exact ⟨hs, ht⟩
  | cons op rest ih =>
    intro s hs ht hl1 hl2
    rw [List.foldl_cons]
    have hstep := goodState_applyOp s op hs ht
      (hl1 op (List.mem_cons_self _ _))
      (fun h => hl2 h op (List.mem_cons_self _ _))
    refine ih (applyOp s op) hstep.1 hstep.2 ?_ ?_
    · intro op2 hm
      exact hl1 op2 (List.mem_cons_of_mem _ hm)
    · rw [data_type_applyOp]
      intro h op2 hm
      exact hl2 h op2 (List.mem_cons_of_mem _ hm)

theorem add_rejects (s : Cacheman) (k : String) (v : PyValue)
    (h : s.get k ≠ PyValue.pnone) :
    s.add k v = (AddResult.keyError, s) := by
  unfold Cacheman.add
  rw [if_pos h]

theorem add_proceeds (s : Cacheman) (k : String) (v : PyValue)
    (h : s.get k = PyValue.pnone) :
    s.add k v = (AddResult.ok, Cacheman.backup_to_db
      { s with data :=
          match s.data_type with
          | DataType.dict => dictSet s.data k v
          | DataType.list => s.data ++ [(k, v)] }) := by
  unfold Cacheman.add
  rw [if_neg (by rw [h]; exact fun hc => hc rfl)]

/-- C2 (amended): for every key not previously added, add succeeds, and a
subsequent get returns the added value whenever the value is truthy or the
representation is the list one; a falsy value added in dict mode is
reported back as the absent result instead. -/
theorem add_fresh_get (dt : DataType) (d t : List (String × PyValue))
    (k : String) (v : PyValue) (habs : aget d k = Option.none)
    (hv : dt = DataType.dict → truthy v = true) :
    ((Cacheman.mk dt d t).add k v).1 = AddResult.ok ∧
    ((Cacheman.mk dt d t).add k v).2.get k = v := by
  have hget : (Cacheman.mk dt d t).get k = PyValue.pnone := by
    cases dt <;> simp [Cacheman.get, habs]
  rw [add_proceeds _ _ v hget]
  refine ⟨rfl, ?_⟩
  cases dt with
  | dict =>
    simp only [Cacheman.get, Cacheman.backup_to_db]
    simp [aget_dictSet_self, hv rfl]
  | list =>
    simp only [Cacheman.get, Cacheman.backup_to_db]
    rw [aget_append_of_none d _ k habs]
    simp [aget]

/-- Witness for C2 at a concrete fresh key and truthy value. -/
theorem add_fresh_get_witness :
    ((Cacheman.mk DataType.dict [] []).add "a" (PyValue.pint 3)).1 = AddResult.ok ∧
    ((Cacheman.mk DataType.dict [] []).add "a" (PyValue.pint 3)).2.get "a"
      = PyValue.pint 3 :=
  add_fresh_get DataType.dict [] [] "a" (PyValue.pint 3) (by decide)
    (fun _ => by decide)

/-- Counterexample to C2 as stated: the falsy value 0 added under a fresh
key in dict mode is accepted, yet get then reports the absent result, not
the stored value. -/
theorem add_fresh_get_cex :
    ((initCacheman DataType.dict).add "a" (PyValue.pint 0)).1 = AddResult.ok ∧
    ((initCacheman DataType.dict).add "a" (PyValue.pint 0)).2.get "a"
      ≠ PyValue.pint 0 := by
  decide

/-- C3 (amended): for every key on which get currently reports a
non-absent result, add fails by returning the KeyError value, not by
raising, and the entire state, container and table alike, is unchanged. -/
theorem add_existing_rejected (s : Cacheman) (k : String) (v2 : PyValue)
    (h : s.get k ≠ PyValue.pnone) :
    (s.add k v2).1 = AddResult.keyError ∧ (s.add k v2).2 = s := by
  rw [add_rejects s k v2 h]
  exact ⟨rfl, rfl⟩

/-- Witness for C3 at a concrete present key with truthy stored value. -/
theorem add_existing_rejected_witness :
    ((Cacheman.mk DataType.dict [("a", PyValue.pint 1)] []).add "a"
      (PyValue.pint 5)).1 = AddResult.keyError ∧
    ((Cacheman.mk DataType.dict [("a", PyValue.pint 1)] []).add "a"
      (PyValue.pint 5)).2 = Cacheman.mk DataType.dict [("a", PyValue.pint 1)] [] :=
  add_existing_rejected (Cacheman.mk DataType.dict [("a", PyValue.pint 1)] [])
    "a" (PyValue.pint 5) (by decide)

/-- Counterexample to C3 as stated: with key a present but holding the
falsy value 0 in dict mode, a second add succeeds and overwrites the
stored value instead of failing and leaving the store unchanged. -/
theorem add_existing_rejected_cex :
    ((run DataType.dict [Op.add "a" (PyValue.pint 0)]).add "a"
      (PyValue.pint 5)).1 = AddResult.ok ∧
    aget ((run DataType.dict [Op.add "a" (PyValue.pint 0)]).add "a"
      (PyValue.pint 5)).2.data "a" = Option.some (PyValue.pint 5) := by
  decide

/-- C5 (amended): get returns the value stored for the key, except that
the dict branch reports a falsy stored value as the absent result; the
absent result arises exactly for a missing key, for a falsy stored value
in dict mode, or for a stored None in list mode — a falsy non-None value
in list mode is returned as is. -/
theorem get_conflates_falsy (dt : DataType) (d t : List (String × PyValue))
    (k : String) (o : Option PyValue) (h : aget d k = o) :
    (Cacheman.mk dt d t).get k =
      match dt, o with
      | _, Option.none => PyValue.pnone
      | DataType.dict, Option.some v => if truthy v then v else PyValue.pnone
      | DataType.list, Option.some v => v := by
  cases dt <;> cases o <;> simp [Cacheman.get, h]

/-- Witness for C5: in list mode the falsy stored value 0 is returned. -/
theorem get_conflates_falsy_witness :
    (Cacheman.mk DataType.list [("a", PyValue.pint 0)] []).get "a"
      = PyValue.pint 0 :=
  get_conflates_falsy DataType.list [("a", PyValue.pint 0)] [] "a"
    (Option.some (PyValue.pint 0)) (by decide)

/-- Counterexample to C5 as stated: in list mode the stored value 0 is
falsy, yet get returns it rather than the claimed absent result. -/
theorem get_conflates_falsy_cex :
    truthy (PyValue.pint 0) = false ∧
    (run DataType.list [Op.add "a" (PyValue.pint 0)]).get "a" = PyValue.pint 0 ∧
    PyValue.pint 0 ≠ PyValue.pnone := by
  decide

theorem mem_searchData (d : List (String × PyValue)) (q : String)
    (kv : String × PyValue) :
    kv ∈ searchData d q ↔
      kv ∈ d ∧ (strContains kv.1 q || strContains (pyStr kv.2) q) = true := by
  induction d with
  | nil => simp [searchData]
  | cons kv1 rest ih =>
    obtain ⟨k1, v1⟩ := kv1
    simp only [searchData]
    by_cases hc : (strContains k1 q || strContains (pyStr v1) q) = true
    · rw [if_pos hc]
      constructor
      · intro hm
        rcases List.mem_cons.mp hm with h1 | h1
        · subst h1
          exact ⟨List.mem_cons_self _ _, hc⟩
        · obtain ⟨hm2, hp⟩ := ih.mp h1
          exact ⟨List.mem_cons_of_mem _ hm2, hp⟩
      · intro hmp
        rcases List.mem_cons.mp hmp.1 with h1 | h1
        · subst h1
          exact List.mem_cons_self _ _
        · exact List.mem_cons_of_mem _ (ih.mpr ⟨h1, hmp.2⟩)
    · rw [if_neg hc]
      constructor
      · intro hm
        obtain ⟨hm2, hp⟩ := ih.mp hm
        exact ⟨List.mem_cons_of_mem _ hm2, hp⟩
      · intro hmp
        rcases List.mem_cons.mp hmp.1 with h1 | h1
        · subst h1
          exact absurd hmp.2 hc
        · exact ih.mpr ⟨h1, hmp.2⟩

/-- C7: search returns exactly the entries, all of them and no others,
whose key or str()-rendered value contains the query as a contiguous,
case-sensitive substring, with no regex interpretation. -/
theorem search_exact (s : Cacheman) (q : String) (kv : String × PyValue) :
    kv ∈ s.search q ↔
      kv ∈ s.data ∧ (strContains kv.1 q || strContains (pyStr kv.2) q) = true := by
  unfold Cacheman.search
  exact mem_searchData s.data q kv

/-- C8: the documented list-mode scenario: add a 1, add b 2, edit a 9
yields exactly the ordered sequence [(a, 9), (b, 2)]. -/
theorem list_scenario_ordered :
    (run DataType.list [Op.add "a" (PyValue.pint 1), Op.add "b" (PyValue.pint 2),
      Op.edit "a" (PyValue.pint 9)]).get_all
      = [("a", PyValue.pint 9), ("b", PyValue.pint 2)] := by
  decide

/-- C9: remove is silent (it only returns a state), a subsequent get on
the removed key reports absent in both representations, and removing an
absent key leaves the container unchanged. -/
theorem remove_then_get_absent (s : Cacheman) (k : String) :
    (s.remove k).get k = PyValue.pnone ∧
    (aget s.data k = Option.none → (s.remove k).data = s.data) := by
  obtain ⟨dt, d, t⟩ := s
  constructor
  · cases dt <;>
      simp [Cacheman.remove, Cacheman.get, Cacheman.backup_to_db,
        aget_removeKey_self]
  · intro habs
    cases dt <;>
      simp [Cacheman.remove, Cacheman.backup_to_db, removeKey_eq_self d k habs]

/-- Witness for C9 at a concrete state where the removed key is absent. -/
theorem remove_then_get_absent_witness :
    ((Cacheman.mk DataType.dict [("b", PyValue.pint 2)] []).remove "a").get "a"
      = PyValue.pnone ∧
    ((Cacheman.mk DataType.dict [("b", PyValue.pint 2)] []).remove "a").data
      = [("b", PyValue.pint 2)] :=
  ⟨(remove_then_get_absent (Cacheman.mk DataType.dict [("b", PyValue.pint 2)] []) "a").1,
   (remove_then_get_absent (Cacheman.mk DataType.dict [("b", PyValue.pint 2)] []) "a").2
     (by decide)⟩

/-- C10 (amended): edit on a present key stores the new value, and get
then returns it whenever it is truthy or the representation is the list
one (a falsy new value in dict mode is reported back as absent); entries
under every other key are untouched; edit on an absent key leaves the
container unchanged and is silent. -/
theorem edit_updates (s : Cacheman) (k : String) (v2 : PyValue) (k2 : String) :
    (aget s.data k ≠ Option.none →
      (s.data_type = DataType.dict → truthy v2 = true) →
      (s.edit k v2).get k = v2) ∧
    (k2 ≠ k → aget (s.edit k v2).data k2 = aget s.data k2) ∧
    (aget s.data k = Option.none → (s.edit k v2).data = s.data) := by
  obtain ⟨dt, d, t⟩ := s
  refine ⟨?_, ?_, ?_⟩
  · intro hpres htr
    obtain ⟨w, hw⟩ := Option.ne_none_iff_exists.mp hpres
    cases dt with
    | dict =>
      have hsome : (aget d k).isSome := by rw [hw.symm]; rfl
      simp only [Cacheman.edit, Cacheman.get, Cacheman.backup_to_db]
      rw [if_pos hsome]
      rw [aget_replaceKey_self, hw.symm]
      simp [htr rfl]
    | list =>
      simp only [Cacheman.edit, Cacheman.get, Cacheman.backup_to_db]
      rw [aget_replaceKey_self, hw.symm]
      simp
  · intro hne
    cases dt with
    | dict =>
      simp only [Cacheman.edit, Cacheman.backup_to_db]
      by_cases hsome : (aget d k).isSome
      · rw [if_pos hsome]
        exact aget_replaceKey_ne d k k2 v2 hne
      · rw [if_neg hsome]
    | list =>
      simp only [Cacheman.edit, Cacheman.backup_to_db]
      exact aget_replaceKey_ne d k k2 v2 hne
  · intro habs
    cases dt with
    | dict =>
      simp only [Cacheman.edit, Cacheman.backup_to_db]
      rw [if_neg (by rw [habs]; simp)]
    | list =>
      simp only [Cacheman.edit, Cacheman.backup_to_db]
      exact replaceKey_eq_self d k v2 habs

/-- Witness for C10 at a concrete present key and truthy new value, with
another key checked untouched. -/
theorem edit_updates_witness :
    ((Cacheman.mk DataType.dict [("a", PyValue.pint 1), ("b", PyValue.pint 2)] []).edit
      "a" (PyValue.pint 9)).get "a" = PyValue.pint 9 ∧
    aget ((Cacheman.mk DataType.dict [("a", PyValue.pint 1), ("b", PyValue.pint 2)] []).edit
      "a" (PyValue.pint 9)).data "b"
      = aget [("a", PyValue.pint 1), ("b", PyValue.pint 2)] "b" :=
  ⟨(edit_updates (Cacheman.mk DataType.dict
      [("a", PyValue.pint 1), ("b", PyValue.pint 2)] []) "a" (PyValue.pint 9) "b").1
      (by decide) (fun _ => by decide),
   (edit_updates (Cacheman.mk DataType.dict
      [("a", PyValue.pint 1), ("b", PyValue.pint 2)] []) "a" (PyValue.pint 9) "b").2.1
      (by decide)⟩

/-- Counterexample to C10 as stated: editing the present key a to the
falsy value 0 in dict mode makes get report absent, not the new value. -/
theorem edit_updates_cex :
    (run DataType.dict [Op.add "a" (PyValue.pint 1), Op.edit "a" (PyValue.pint 0)]).get "a"
      = PyValue.pnone ∧
    PyValue.pnone ≠ PyValue.pint 0 := by
  decide

/-- C6: backup_to_db only upserts the keys currently in the container and
never deletes rows: the table row of any key absent from the container,
for instance one just removed, is unchanged by the backup. -/
theorem backup_frame (s : Cacheman) (k : String) (h : k ∉ keys s.data) :
    aget s.backup_to_db.table k = aget s.table k := by
  obtain ⟨dt, d, t⟩ := s
  exact aget_backupFold_not_mem d k t h

/-- Witness for C6: a stale row under key a survives a backup of a store
holding only key b. -/
theorem backup_frame_witness :
    aget ((Cacheman.mk DataType.dict [("b", PyValue.pint 2)]
      [("a", PyValue.pint 1)]).backup_to_db).table "a"
      = aget [("a", PyValue.pint 1)] "a" :=
  backup_frame (Cacheman.mk DataType.dict [("b", PyValue.pint 2)]
    [("a", PyValue.pint 1)]) "a" (by decide)

/-- C4 (amended): key uniqueness holds in every state reachable by add,
edit and remove, unconditionally in dict mode, and in list mode provided
no add or edit stores the value None — a stored None defeats the existence
check of add, which then appends a duplicate key. -/
theorem keys_nodup_invariant (dt : DataType) (ops : List Op)
    (hop : dt = DataType.list → ∀ op ∈ ops, opNonNone op) :
    (keys (run dt ops).data).Nodup :=
  (storeInv_run dt ops hop).1

/-- Witness for C4 on a concrete list-mode history with non-None values. -/
theorem keys_nodup_invariant_witness :
    (keys (run DataType.list [Op.add "a" (PyValue.pint 1),
      Op.add "a" (PyValue.pint 2), Op.remove "a"]).data).Nodup :=
  keys_nodup_invariant DataType.list
    [Op.add "a" (PyValue.pint 1), Op.add "a" (PyValue.pint 2), Op.remove "a"]
    (by decide)

/-- Counterexample to C4 as stated: in list mode, adding None under key a
and then adding under a again duplicates the key, because get reports the
stored None as absent. -/
theorem keys_nodup_invariant_cex :
    ¬ (keys (run DataType.list [Op.add "a" PyValue.pnone,
      Op.add "a" (PyValue.pint 1)]).data).Nodup := by
  decide

/-- C1 (amended): starting from a fresh instance, after any sequence of
add and edit operations, no remove and, in list mode, no None value
stored, each mutation followed by its triggered synchronous backup, every
table lookup agrees with the container, and a new instance constructed
against the persisted table with allow_loading holds exactly the same
key/value set as the prior instance. -/
theorem backup_load_roundtrip (dt : DataType) (ops : List Op) (k : String)
    (v : PyValue) (hnr : ∀ op ∈ ops, ¬ isRemoveOp op)
    (hop : dt = DataType.list → ∀ op ∈ ops, opNonNone op) :
    aget (run dt ops).table k = aget (run dt ops).data k ∧
    ((k, v) ∈ (newInstance dt (run dt ops).table).data ↔
      (k, v) ∈ (run dt ops).data) := by
  obtain ⟨hs, ht⟩ := goodState_run dt ops hnr hop
  refine ⟨ht.2 k, ?_⟩
  have hload : (newInstance dt (run dt ops).table).data = (run dt ops).table := by
    show loadRows dt (run dt ops).table = (run dt ops).table
    exact loadRows_eq_self dt _ ht.1
  rw [hload]
  constructor
  · intro hm
    have h1 : aget (run dt ops).table k = Option.some v :=
      mem_aget _ k v ht.1 hm
    rw [ht.2 k] at h1
    exact aget_mem _ k v h1
  · intro hm
    have h1 : aget (run dt ops).data k = Option.some v :=
      mem_aget _ k v hs.1 hm
    exact aget_mem _ k v ((ht.2 k).trans h1)

/-- Witness for C1 on a concrete add-then-edit history in dict mode. -/
theorem backup_load_roundtrip_witness :
    aget (run DataType.dict [Op.add "a" (PyValue.pint 1),
      Op.edit "a" (PyValue.pint 2)]).table "a"
      = aget (run DataType.dict [Op.add "a" (PyValue.pint 1),
        Op.edit "a" (PyValue.pint 2)]).data "a" ∧
    (("a", PyValue.pint 2) ∈ (newInstance DataType.dict
      (run DataType.dict [Op.add "a" (PyValue.pint 1),
        Op.edit "a" (PyValue.pint 2)]).table).data ↔
      ("a", PyValue.pint 2) ∈ (run DataType.dict [Op.add "a" (PyValue.pint 1),
        Op.edit "a" (PyValue.pint 2)]).data) :=
  backup_load_roundtrip DataType.dict
    [Op.add "a" (PyValue.pint 1), Op.edit "a" (PyValue.pint 2)]
    "a" (PyValue.pint 2) (by decide) (by decide)

/-- Counterexample to C1 as stated: after add a 1, remove a, each followed
by its backup, the prior instance holds the empty key/value set but the
removed row survives in the table, so the reloaded instance holds a 1. -/
theorem backup_load_roundtrip_cex :
    (run DataType.dict [Op.add "a" (PyValue.pint 1), Op.remove "a"]).data = [] ∧
    (newInstance DataType.dict (run DataType.dict [Op.add "a" (PyValue.pint 1),
      Op.remove "a"]).table).data = [("a", PyValue.pint 1)] := by
  decide
